import Mathlib

/-!
Verification of the certificate-transparency-go `fixchain` hash/logger
subsystem and the `scanner` Fetcher, against their natural-language
specification.

Bytes are modelled as `Nat` (values < 256), byte strings as `List Nat`,
and `int64` indices as `Int`.  Machine `uint32` arithmetic is modelled on
`Nat` with explicit `% 2^32` reductions.
-/

/-! ## SHA-256 (FIPS 180-4), modelled over byte lists

`crypto/sha256` is external to the repository; the fixchain hash helpers
call `newHash()` (= `sha256.New()`), `Hash.Write`, and `Hash.Sum`.  We
implement SHA-256 itself so that those helpers can be evaluated exactly.
-/

/-- 32-bit truncation. -/
def u32 (x : Nat) : Nat := x % 2 ^ 32

/-- Right rotation of a 32-bit word. -/
def rotr32 (n x : Nat) : Nat := u32 ((x >>> n) ||| (x <<< (32 - n)))

/-- SHA-256 small sigma 0. -/
def ssig0 (x : Nat) : Nat := rotr32 7 x ^^^ rotr32 18 x ^^^ (x >>> 3)

/-- SHA-256 small sigma 1. -/
def ssig1 (x : Nat) : Nat := rotr32 17 x ^^^ rotr32 19 x ^^^ (x >>> 10)

/-- SHA-256 big Sigma 0. -/
def bsig0 (x : Nat) : Nat := rotr32 2 x ^^^ rotr32 13 x ^^^ rotr32 22 x

/-- SHA-256 big Sigma 1. -/
def bsig1 (x : Nat) : Nat := rotr32 6 x ^^^ rotr32 11 x ^^^ rotr32 25 x

/-- SHA-256 choice function. -/
def chFn (x y z : Nat) : Nat := (x &&& y) ^^^ ((x ^^^ 0xffffffff) &&& z)

/-- SHA-256 majority function. -/
def majFn (x y z : Nat) : Nat := (x &&& y) ^^^ (x &&& z) ^^^ (y &&& z)

/-- The SHA-256 round constants (FIPS 180-4, written in decimal). -/
def sha256K : List Nat :=
  [1116352408, 1899447441, 3049323471, 3921009573, 961987163,
   1508970993, 2453635748, 2870763221, 3624381080, 310598401,
   607225278, 1426881987, 1925078388, 2162078206, 2614888103,
   3248222580, 3835390401, 4022224774, 264347078, 604807628,
   770255983, 1249150122, 1555081692, 1996064986, 2554220882,
   2821834349, 2952996808, 3210313671, 3336571891, 3584528711,
   113926993, 338241895, 666307205, 773529912, 1294757372,
   1396182291, 1695183700, 1986661051, 2177026350, 2456956037,
   2730485921, 2820302411, 3259730800, 3345764771, 3516065817,
   3600352804, 4094571909, 275423344, 430227734, 506948616,
   659060556, 883997877, 958139571, 1322822218, 1537002063,
   1747873779, 1955562222, 2024104815, 2227730452, 2361852424,
   2428436474, 2756734187, 3204031479, 3329325298]

/-- The SHA-256 initial hash value (FIPS 180-4, written in decimal). -/
def sha256H0 : List Nat :=
  [1779033703, 3144134277, 1013904242, 2773480762,
   1359893119, 2600822924, 528734635, 1541459225]

/-- Big-endian byte serialisation of `v` on `k` bytes. -/
def beBytes : Nat → Nat → List Nat
  | 0, _ => []
  | k + 1, v => beBytes k (v / 256) ++ [v % 256]

/-- Group a byte list into big-endian 32-bit words (four bytes each). -/
def toWords : List Nat → List Nat
  | a :: b :: c :: d :: rest => (((a * 256 + b) * 256 + c) * 256 + d) :: toWords rest
  | _ => []

/-- SHA-256 message padding: append `0x80`, zeros up to 56 mod 64, then the
bit length on eight big-endian bytes. -/
def padMsg (msg : List Nat) : List Nat :=
  let L := msg.length
  msg ++ [0x80] ++ List.replicate ((64 + 56 - ((L + 1) % 64)) % 64) 0
      ++ beBytes 8 (8 * L)

/-- Split a byte list into 64-byte blocks.  The first argument is fuel
bounding the number of blocks (the byte count suffices, since every
non-final step consumes 64 bytes); it only makes the recursion structural.
-/
def blocks64Go : Nat → List Nat → List (List Nat)
  | 0, _ => []
  | fuel + 1, l => if l = [] then [] else l.take 64 :: blocks64Go fuel (l.drop 64)

/-- Split a byte list into 64-byte blocks. -/
def blocks64 (l : List Nat) : List (List Nat) := blocks64Go l.length l

/-- Extend the 16 words of a block to the 64-word message schedule. -/
def scheduleW (w16 : List Nat) : List Nat :=
  (List.range 48).foldl
    (fun w i =>
      w ++ [u32 (ssig1 (w.getD (i + 14) 0) + w.getD (i + 9) 0
                  + ssig0 (w.getD (i + 1) 0) + w.getD i 0)])
    w16

/-- One SHA-256 round: state is the eight working words `[a,b,c,d,e,f,g,h]`. -/
def sha256Round (st : List Nat) (kw : Nat × Nat) : List Nat :=
  let a := st.getD 0 0
  let b := st.getD 1 0
  let c := st.getD 2 0
  let d := st.getD 3 0
  let e := st.getD 4 0
  let f := st.getD 5 0
  let g := st.getD 6 0
  let h := st.getD 7 0
  let t1 := u32 (h + bsig1 e + chFn e f g + kw.1 + kw.2)
  let t2 := u32 (bsig0 a + majFn a b c)
  [u32 (t1 + t2), a, b, c, u32 (d + t1), e, f, g]

/-- SHA-256 compression of one 64-byte block into the running hash. -/
def sha256Compress (hs : List Nat) (block : List Nat) : List Nat :=
  let w := scheduleW (toWords block)
  let fin := (sha256K.zip w).foldl sha256Round hs
  (hs.zip fin).map (fun p => u32 (p.1 + p.2))

/-- SHA-256 of a byte list, as a 32-byte list. -/
def sha256Bytes (msg : List Nat) : List Nat :=
  (((blocks64 (padMsg msg)).foldl sha256Compress sha256H0).map (beBytes 4)).flatten

namespace fixchain

/-! ## fixchain hash helpers (`fixchain/functions.go`)

Certificates enter these functions only through their raw DER bytes
(`x509.Certificate.Raw`), so a certificate is modelled by that field. -/

/-- An `x509.Certificate`, restricted to the `Raw` DER bytes, the only field
the fixchain hash helpers and the Logger read. -/
structure Certificate where
  Raw : List Nat
deriving DecidableEq, Inhabited

/-- Go's `copy(dst[:], src)` into a zero-initialised `[32]byte` array:
the first 32 bytes of `src`, zero-padded when `src` is shorter. -/
def copy32 (src : List Nat) : List Nat :=
  src.take 32 ++ List.replicate (32 - src.length) 0

/-- Go's `newHash().Sum(b)` with `newHash = sha256.New`: `Hash.Sum`
*appends* the digest of the data written so far — here nothing, so the
SHA-256 of the empty string — to `b` and returns the combined slice. -/
def newHashSum (b : List Nat) : List Nat := b ++ sha256Bytes []

/-- `func hash(c *x509.Certificate) (hash [hashSize]byte)`:
`copy(hash[:], newHash().Sum(c.Raw))`. -/
def hash (c : Certificate) : List Nat := copy32 (newHashSum c.Raw)

/-- `func hashChain(ch []*x509.Certificate) (hash [hashSize]byte)`:
a fresh SHA-256 state absorbs `newHash().Sum(c.Raw)` for each certificate
in order, and `copy(hash[:], h.Sum(nil))` takes the final digest. -/
def hashChain (ch : List Certificate) : List Nat :=
  copy32 (sha256Bytes ((ch.map (fun c => newHashSum c.Raw)).flatten))

/-- The byte-comparison loop of `bag.Less` on two equal-length raw DER
strings: first differing byte decides; equal strings compare `false`. -/
def lexLt : List Nat → List Nat → Bool
  | a :: as, b :: bs =>
    if a < b then true else if b < a then false else lexLt as bs
  | _, _ => false

/-- `func (b bag) Less(i, j int) bool`: shorter raw DER first, then the
byte-wise comparison loop on equal lengths. -/
def bagLess (ci cj : List Nat) : Bool :=
  if ci.length ≠ cj.length then decide (ci.length < cj.length) else lexLt ci cj

/-- The non-strict order `sort.Sort` establishes for `bag`: `a` may precede
`b` exactly when `Less(b, a)` is false. -/
def certLe (a b : Certificate) : Bool := ! bagLess b.Raw a.Raw

/-- `sort.Sort(b)` on a `bag`: produces a permutation of `b.certs` that is
sorted under `bag.Less`.  Since the order is total and antisymmetric on the
modelled certificates (a certificate is its raw DER), the sorted result is
unique, and we model it with `mergeSort`. -/
def sortCerts (l : List Certificate) : List Certificate := l.mergeSort certLe

/-- `func hashBag(chain []*x509.Certificate) [hashSize]byte`: copy the chain
into a fresh bag, sort the copy, and `hashChain` the sorted copy.  At the
level of values the copy is the identity; see `hashBagStore` for the
heap-level model of the copy. -/
def hashBag (chain : List Certificate) : List Nat := hashChain (sortCerts chain)

/-- Heap-level model of `hashBag` for the frame property.  A store maps
slice identifiers (indices) to slice contents.  `hashBag` allocates a fresh
slice (`make`), copies the argument into it, sorts the fresh slice in place
(`sort.Sort(b)`), and hashes it; the argument slice `p` is never written. -/
def hashBagStore (σ : List (List Certificate)) (p : Nat) :
    List (List Certificate) × List Nat :=
  let src := σ.getD p []
  let σ1 := σ ++ [src]
  let fresh := σ.length
  let σ2 := σ1.set fresh (sortCerts (σ1.getD fresh []))
  (σ2, hashChain (σ2.getD fresh []))

/-! ## Logger (`fixchain/logger.go`)

`lockedMap` is a mutex-protected `map[[hashSize]byte]bool`; its only uses
set keys to `true`, so it is modelled as the list of keys set so far.
`uint32` counters are modelled as `Nat` reduced mod `2^32` on increment.
The `toPost` channel is modelled as a FIFO queue. -/

/-- `atomic.AddUint32(&x, 1)` on a `uint32` counter. -/
def incU32 (x : Nat) : Nat := (x + 1) % 2 ^ 32

/-- `lockedMap.get`: absent keys read as `false`. -/
def lockedMapGet (m : List (List Nat)) (k : List Nat) : Bool := m.contains k

/-- `lockedMap.set(k, true)`. -/
def lockedMapSet (m : List (List Nat)) (k : List Nat) : List (List Nat) := k :: m

/-- The `ErrorType` enumeration of fixchain errors (declared in the
package's `errors.go`; the constants are used by `logger.go`). -/
inductive ErrorType where
  | None
  | ParseFailure
  | CannotFetchURL
  | BadURL
  | FailedHTTPRequest
  | LogPostFailed
  | VerifyFailed
  | FixFailed
deriving DecidableEq

/-- A fixchain `FixError` as constructed by `Logger.postChain`: the error
kind, the chain being posted, and the wrapped error message. -/
structure FixError where
  typ : ErrorType
  chain : List Certificate
  errMsg : String
deriving DecidableEq

/-- The mutable state of a `Logger` that `QueueChain`/`postChain` touch:
the two caches, the four `uint32` counters, and the `toPost` queue. -/
structure LoggerState where
  postCertCache : List (List Nat)
  postChainCache : List (List Nat)
  queued : Nat
  posted : Nat
  reposted : Nat
  chainReposted : Nat
  toPost : List (List Certificate)
deriving DecidableEq

/-- The state of a freshly constructed Logger: empty caches, zero counters,
empty queue. -/
def initLoggerState : LoggerState := ⟨[], [], 0, 0, 0, 0, []⟩

/-- `Logger.QueueChain(chain)`.  `none` models a nil slice (immediate
return).  A non-nil chain first bumps `queued`, then is suppressed on a
`postCertCache` hit for the leaf hash (bumping `reposted`), then on a
`postChainCache` hit for the ordered chain hash (bumping `chainReposted`);
otherwise the chain hash is cached eagerly and a task is enqueued
(`postToLog`).  The Go code indexes `chain[0]`, so real (non-nil) inputs
are nonempty; on the nonempty case `headI` is that leaf. -/
def queueChain (l : LoggerState) (chain : Option (List Certificate)) : LoggerState :=
  match chain with
  | none => l
  | some chain =>
    let l := { l with queued := incU32 l.queued }
    let h := hash chain.headI
    if lockedMapGet l.postCertCache h then
      { l with reposted := incU32 l.reposted }
    else
      let h2 := hashChain chain
      if lockedMapGet l.postChainCache h2 then
        { l with chainReposted := incU32 l.chainReposted }
      else
        let l := { l with postChainCache := lockedMapSet l.postChainCache h2 }
        { l with toPost := l.toPost ++ [chain] }

/-- `Logger.postChain(p)` processing one task.  `addChainErr` is the result
of the external `client.AddChain` call (`none` = success, `some e` = the
underlying error).  Returns the new state, the `FixError`s sent on the
errors channel, and the list of chains actually passed to `AddChain`
(instrumentation used to state the at-most-once property). -/
def postChain (l : LoggerState) (p : List Certificate) (addChainErr : Option String) :
    LoggerState × List FixError × List (List Certificate) :=
  let h := hash p.headI
  if lockedMapGet l.postCertCache h then
    ({ l with reposted := incU32 l.reposted }, [], [])
  else
    let l := { l with posted := incU32 l.posted }
    match addChainErr with
    | some e =>
      (l, [⟨ErrorType.LogPostFailed, p, "add-chain failed: " ++ e⟩], [p])
    | none =>
      ({ l with postCertCache := lockedMapSet l.postCertCache h }, [], [p])

/-- One observable event of a Logger run: a `QueueChain` call, or a
`postServer` worker taking the next task off `toPost` and running
`postChain` on it (a no-op while the queue is empty, since the worker
blocks on the channel). -/
inductive LogEv where
  | queue (chain : Option (List Certificate))
  | post (addChainErr : Option String)

/-- A Logger configuration: the state plus the accumulated list of chains
passed to `AddChain` so far. -/
def loggerStep (st : LoggerState × List (List Certificate)) (ev : LogEv) :
    LoggerState × List (List Certificate) :=
  match ev with
  | .queue c => (queueChain st.1 c, st.2)
  | .post e =>
    match st.1.toPost with
    | [] => st
    | p :: rest =>
      let l := { st.1 with toPost := rest }
      let r := postChain l p e
      (r.1, st.2 ++ r.2.2)

/-- A whole Logger run: fold the events over the initial state. -/
def runLogger (evs : List LogEv) : LoggerState × List (List Certificate) :=
  evs.foldl loggerStep (initLoggerState, [])

end fixchain

namespace scanner

/-! ## Fetcher (`scanner/fetcher.go`)

`int64` log indices are modelled as `Int`.  The ranges channel is modelled
as the list of ranges the generator emits; each worker handles one range
completely, so the batches of a run are the concatenation, per range, of
the batches its worker produces. -/

/-- A `ct.LeafEntry` as returned inside a `GetEntriesResponse`. -/
structure LeafEntry where
  LeafInput : List Nat
  ExtraData : List Nat
deriving DecidableEq, Inhabited

/-- `fetchRange{start, end}`: inclusive bounds of one request.  (`end` is a
Lean keyword, so the field is spelled `end_`.) -/
structure fetchRange where
  start : Int
  end_ : Int
deriving DecidableEq, Inhabited

/-- `EntryBatch{Start, Entries}`: a contiguous batch handed to the `Run`
callback. -/
structure EntryBatch where
  Start : Int
  Entries : List LeafEntry
deriving DecidableEq, Inhabited

/-- Go `func min(a, b int64) int64`. -/
def goMin (a b : Int) : Int := if a < b then a else b

/-- `Fetcher.genRanges` in non-continuous mode (`Continuous == false`): the
generator loop emits `fetchRange{start, start + min(end-start, batch) - 1}`
and advances `start` until `start < end` fails.  The `1 ≤ batch` conjunct
in the guard only forces termination: for `batch ≤ 0` the Go loop would
emit degenerate ranges forever, and all claims assume `BatchSize ≥ 1`. -/
def genRanges (batch s e : Int) : List fetchRange :=
  if h : s < e ∧ 1 ≤ batch then
    let batchEnd := s + goMin (e - s) batch
    ⟨s, batchEnd - 1⟩ :: genRanges batch batchEnd e
  else []
termination_by (e - s).toNat
decreasing_by
  simp only [goMin]
  split <;> omega

/-- The inner loop of `Fetcher.runWorker` on one range, driven by the
response oracle `g`: while `r.start ≤ r.end`, `GetRawEntries(r.start,
r.end)` (wrapped in `bo.Retry`, which hides transient errors) returns
`g r.start r.end`; the worker invokes `fn(EntryBatch{r.start, resp})` and
advances `r.start` by `len(resp.Entries)`.  The Go loop is unbounded, so it
is modelled with fuel: the first component lists the batches passed to
`fn`, and the second is `some r'` when the fuel ran out with the range
still uncovered (the loop would keep re-requesting `r'`), `none` when the
range completed. -/
def runRange (g : Int → Int → List LeafEntry) :
    Nat → fetchRange → List EntryBatch × Option fetchRange
  | 0, r => ([], if r.start ≤ r.end_ then some r else none)
  | n + 1, r =>
    if r.start ≤ r.end_ then
      let resp := g r.start r.end_
      let res := runRange g n ⟨r.start + resp.length, r.end_⟩
      (⟨r.start, resp⟩ :: res.1, res.2)
    else ([], none)

/-- A whole non-continuous `Fetcher.Run` under the response oracle `g`: the
generator's ranges, each fully processed by a worker.  `fuel` per range is
the range width, which suffices when every response is nonempty. -/
def runFetcher (batch s e : Int) (g : Int → Int → List LeafEntry) :
    List EntryBatch :=
  ((genRanges batch s e).map
    (fun r => (runRange g (r.end_ + 1 - r.start).toNat r).1)).flatten

/-- The index span of an `EntryBatch`, as an inclusive `fetchRange`. -/
def span (b : EntryBatch) : fetchRange := ⟨b.Start, b.Start + b.Entries.length - 1⟩

/-- `chainFrom s l e`: the ranges of `l` are nonempty, consecutive, and
exactly tile the half-open interval `[s, e)`: the first starts at `s`, each
next range starts one past the previous range's end, and the last ends at
`e - 1`. -/
def chainFrom : Int → List fetchRange → Int → Prop
  | s, [], e => s = e
  | s, r :: rs, e => r.start = s ∧ r.start ≤ r.end_ ∧ chainFrom (r.end_ + 1) rs e

end scanner

/-! ## Concrete instances used by counterexamples and witnesses -/

namespace fixchain

/-- A one-byte certificate used to evaluate the hash helpers. -/
def exCertA : Certificate := ⟨[0]⟩

/-- A Logger state whose `postCertCache` already holds the leaf hash of
`exCertA`, with five chains queued so far. -/
def exStC4 : LoggerState := ⟨[hash exCertA], [], 5, 0, 0, 0, []⟩

/-- A one-byte certificate for the `QueueChain` branch witnesses. -/
def exCertC5 : Certificate := ⟨[7]⟩

/-- A Logger state with a `postCertCache` hit for `exCertC5`. -/
def exStC5a : LoggerState := ⟨[hash exCertC5], [], 0, 0, 0, 0, []⟩

/-- A Logger state with a `postChainCache` hit for the chain `[exCertC5]`. -/
def exStC5b : LoggerState := ⟨[], [hashChain [exCertC5]], 0, 0, 0, 0, []⟩

/-- A one-byte certificate for the `postChain` witness. -/
def exCertC9 : Certificate := ⟨[9]⟩

end fixchain

namespace scanner

/-- A `GetRawEntries` oracle whose every response is successful but empty. -/
def emptyEntriesOracle : Int → Int → List LeafEntry := fun _ _ => []

/-- A `GetRawEntries` oracle that always returns exactly one entry: a
maximally truncating but well-behaved log. -/
def singleEntryOracle : Int → Int → List LeafEntry := fun _ _ => [⟨[], []⟩]

end scanner

namespace fixchain

/-! ## Properties of the `bag` order -/

theorem lexLt_trans : ∀ x y z : List Nat,
    lexLt x y = true → lexLt y z = true → lexLt x z = true := by
  intro x
  induction x with
  | nil => intro y z h1 _; cases y <;> simp [lexLt] at h1
  | cons a as ih =>
    intro y z h1 h2
    cases y with
    | nil => simp [lexLt] at h1
    | cons b bs =>
      cases z with
      | nil => simp [lexLt] at h2
      | cons c cs =>
        simp only [lexLt] at h1 h2 ⊢
        rcases Nat.lt_trichotomy a b with hab | hab | hab
        · rcases Nat.lt_trichotomy b c with hbc | hbc | hbc
          · simp [Nat.lt_trans hab hbc]
          · subst hbc; simp [hab]
          · rw [if_neg (by omega), if_pos hbc] at h2; simp at h2
        · subst hab
          rw [if_neg (lt_irrefl a), if_neg (lt_irrefl a)] at h1
          rcases Nat.lt_trichotomy a c with hac | hac | hac
          · simp [hac]
          · subst hac
            rw [if_neg (lt_irrefl a), if_neg (lt_irrefl a)] at h2 ⊢
            exact ih bs cs h1 h2
          · rw [if_neg (by omega), if_pos hac] at h2; simp at h2
        · rw [if_neg (by omega), if_pos hab] at h1; simp at h1

theorem lexLt_asymm : ∀ x y : List Nat, lexLt x y = true → lexLt y x = false := by
  intro x
  induction x with
  | nil => intro y h1; cases y <;> simp [lexLt] at h1
  | cons a as ih =>
    intro y h1
    cases y with
    | nil => simp [lexLt] at h1
    | cons b bs =>
      simp only [lexLt] at h1 ⊢
      rcases Nat.lt_trichotomy a b with hab | hab | hab
      · rw [if_neg (by omega), if_pos hab]
      · subst hab
        rw [if_neg (lt_irrefl a), if_neg (lt_irrefl a)] at h1 ⊢
        exact ih bs h1
      · rw [if_neg (by omega), if_pos hab] at h1; simp at h1

theorem lexLt_conn : ∀ x y : List Nat, x.length = y.length →
    lexLt x y = false → lexLt y x = false → x = y := by
  intro x
  induction x with
  | nil =>
    intro y hl _ _
    cases y with
    | nil => rfl
    | cons b bs => simp at hl
  | cons a as ih =>
    intro y hl h1 h2
    cases y with
    | nil => simp at hl
    | cons b bs =>
      simp only [lexLt] at h1 h2
      rcases Nat.lt_trichotomy a b with hab | hab | hab
      · rw [if_pos hab] at h1; simp at h1
      · subst hab
        rw [if_neg (lt_irrefl a), if_neg (lt_irrefl a)] at h1 h2
        have : as = bs := ih bs (by simpa using hl) h1 h2
        rw [this]
      · rw [if_pos hab] at h2; simp at h2

theorem bagLess_trans : ∀ x y z : List Nat,
    bagLess x y = true → bagLess y z = true → bagLess x z = true := by
  intro x y z h1 h2
  simp only [bagLess] at h1 h2 ⊢
  by_cases hxy : x.length = y.length <;> by_cases hyz : y.length = z.length
  · rw [if_neg (by omega)] at h1 h2 ⊢
    exact lexLt_trans x y z h1 h2
  · rw [if_neg (by omega)] at h1
    rw [if_pos (by omega)] at h2
    rw [if_pos (by omega)]
    simp only [decide_eq_true_eq] at h2 ⊢
    omega
  · rw [if_pos (by omega)] at h1
    rw [if_neg (by omega)] at h2
    rw [if_pos (by omega)]
    simp only [decide_eq_true_eq] at h1 ⊢
    omega
  · rw [if_pos (by omega)] at h1
    rw [if_pos (by omega)] at h2
    simp only [decide_eq_true_eq] at h1 h2
    rw [if_pos (by omega)]
    simp only [decide_eq_true_eq]
    omega

theorem bagLess_asymm : ∀ x y : List Nat,
    bagLess x y = true → bagLess y x = false := by
  intro x y h1
  simp only [bagLess] at h1 ⊢
  by_cases hxy : x.length = y.length
  · rw [if_neg (by omega)] at h1 ⊢
    exact lexLt_asymm x y h1
  · rw [if_pos (by omega)] at h1 ⊢
    simp only [decide_eq_true_eq] at h1
    simp only [decide_eq_false_iff_not]
    omega

theorem bagLess_conn : ∀ x y : List Nat,
    bagLess x y = false → bagLess y x = false → x = y := by
  intro x y h1 h2
  simp only [bagLess] at h1 h2
  by_cases hxy : x.length = y.length
  · rw [if_neg (by omega)] at h1 h2
    exact lexLt_conn x y hxy h1 h2
  · rw [if_pos (by omega)] at h1 h2
    simp only [decide_eq_false_iff_not] at h1 h2
    omega

theorem certLe_trans : ∀ a b c : Certificate,
    certLe a b = true → certLe b c = true → certLe a c = true := by
  intro a b c h1 h2
  simp only [certLe, Bool.not_eq_true'] at h1 h2
  simp only [certLe, Bool.not_eq_true']
  by_cases hbc : bagLess b.Raw c.Raw = true
  · by_cases hca : bagLess c.Raw a.Raw = true
    · exact absurd (bagLess_trans _ _ _ hbc hca) (by simp [h1])
    · simpa using hca
  · have hcb : c.Raw = b.Raw :=
      bagLess_conn _ _ h2 (by simpa using hbc)
    rw [hcb]
    exact h1

theorem certLe_total : ∀ a b : Certificate, (certLe a b || certLe b a) = true := by
  intro a b
  simp only [certLe, Bool.not_eq_true']
  by_cases h : bagLess b.Raw a.Raw = true
  · simp [bagLess_asymm _ _ h]
  · simp [h]

theorem certLe_antisymm : ∀ a b : Certificate,
    certLe a b = true → certLe b a = true → a = b := by
  intro a b h1 h2
  simp only [certLe, Bool.not_eq_true'] at h1 h2
  have : a.Raw = b.Raw := bagLess_conn _ _ h2 h1
  cases a; cases b; simpa using this

/-- The sort result is determined by the multiset of certificates: sorting
any permutation of a chain gives the same list. -/
theorem sortCerts_perm_eq {l₁ l₂ : List Certificate} (h : l₁.Perm l₂) :
    sortCerts l₁ = sortCerts l₂ := by
  haveI : IsAntisymm Certificate (fun a b => certLe a b = true) :=
    ⟨fun a b => certLe_antisymm a b⟩
  refine List.eq_of_perm_of_sorted
    (r := fun a b => certLe a b = true)
    (((List.mergeSort_perm l₁ certLe).trans h).trans
      (List.mergeSort_perm l₂ certLe).symm) ?_ ?_
  · exact List.sorted_mergeSort certLe_trans certLe_total l₁
  · exact List.sorted_mergeSort certLe_trans certLe_total l₂

end fixchain

namespace scanner

/-! ## Tiling lemmas for `chainFrom` -/

theorem chainFrom_nil {s e : Int} (h : chainFrom s [] e) : s = e := h

theorem chainFrom_le : ∀ (l : List fetchRange) (s e : Int), chainFrom s l e → s ≤ e := by
  intro l
  induction l with
  | nil => intro s e h; exact le_of_eq h
  | cons r rs ih =>
    intro s e h
    obtain ⟨h1, h2, h3⟩ := h
    have := ih (r.end_ + 1) e h3
    omega

theorem chainFrom_bounds : ∀ (l : List fetchRange) (s e : Int), chainFrom s l e →
    ∀ r ∈ l, s ≤ r.start ∧ r.start ≤ r.end_ ∧ r.end_ < e := by
  intro l
  induction l with
  | nil => intro s e _ r hr; simp at hr
  | cons q qs ih =>
    intro s e h r hr
    obtain ⟨h1, h2, h3⟩ := h
    rcases List.mem_cons.mp hr with hr | hr
    · subst hr
      have := chainFrom_le qs (r.end_ + 1) e h3
      omega
    · have := ih (q.end_ + 1) e h3 r hr
      omega

theorem chainFrom_head : ∀ (l : List fetchRange) (s e : Int), chainFrom s l e →
    ∀ r, l.head? = some r → r.start = s := by
  intro l s e h r hr
  cases l with
  | nil => simp at hr
  | cons q qs =>
    simp only [List.head?_cons, Option.some.injEq] at hr
    subst hr
    exact h.1

theorem chainFrom_consec : ∀ (l : List fetchRange) (s e : Int) (i : Nat)
    (r₁ r₂ : fetchRange), chainFrom s l e →
    l[i]? = some r₁ → l[i + 1]? = some r₂ → r₂.start = r₁.end_ + 1 := by
  intro l
  induction l with
  | nil => intro s e i r₁ r₂ _ h1 _; simp at h1
  | cons q qs ih =>
    intro s e i r₁ r₂ h h1 h2
    obtain ⟨hs, hse, hrest⟩ := h
    cases i with
    | zero =>
      simp only [List.getElem?_cons_zero, Option.some.injEq] at h1
      subst h1
      simp only [List.getElem?_cons_succ] at h2
      have : qs.head? = some r₂ := by
        cases qs with
        | nil => simp at h2
        | cons p ps => simp at h2; simp [h2]
      exact chainFrom_head qs (q.end_ + 1) e hrest r₂ this
    | succ j =>
      simp only [List.getElem?_cons_succ] at h1 h2
      exact ih (q.end_ + 1) e j r₁ r₂ hrest h1 h2

theorem chainFrom_disjoint : ∀ (l : List fetchRange) (s e : Int) (i j : Nat)
    (r₁ r₂ : fetchRange), chainFrom s l e → i < j →
    l[i]? = some r₁ → l[j]? = some r₂ → r₁.end_ < r₂.start := by
  intro l
  induction l with
  | nil => intro s e i j r₁ r₂ _ _ h1 _; simp at h1
  | cons q qs ih =>
    intro s e i j r₁ r₂ h hij h1 h2
    obtain ⟨hs, hse, hrest⟩ := h
    cases i with
    | zero =>
      simp only [List.getElem?_cons_zero, Option.some.injEq] at h1
      subst h1
      obtain ⟨j', rfl⟩ : ∃ j', j = j' + 1 := ⟨j - 1, by omega⟩
      simp only [List.getElem?_cons_succ] at h2
      have hmem : r₂ ∈ qs := List.getElem?_mem h2
      have := chainFrom_bounds qs (q.end_ + 1) e hrest r₂ hmem
      omega
    | succ i' =>
      obtain ⟨j', rfl⟩ : ∃ j', j = j' + 1 := ⟨j - 1, by omega⟩
      simp only [List.getElem?_cons_succ] at h1 h2
      exact ih (q.end_ + 1) e i' j' r₁ r₂ hrest (by omega) h1 h2

theorem chainFrom_cover : ∀ (l : List fetchRange) (s e : Int), chainFrom s l e →
    ∀ x : Int, (s ≤ x ∧ x < e) ↔ ∃ r ∈ l, r.start ≤ x ∧ x ≤ r.end_ := by
  intro l
  induction l with
  | nil =>
    intro s e h x
    have he : s = e := h
    subst he
    constructor
    · rintro ⟨h1, h2⟩; omega
    · rintro ⟨r, hr, -⟩; simp at hr
  | cons q qs ih =>
    intro s e h x
    obtain ⟨hs, hse, hrest⟩ := h
    constructor
    · rintro ⟨hx1, hx2⟩
      by_cases hq : x ≤ q.end_
      · exact ⟨q, List.mem_cons_self q qs, by omega, hq⟩
      · obtain ⟨r, hr, hr1, hr2⟩ :=
          ((ih (q.end_ + 1) e hrest x).mp ⟨by omega, hx2⟩)
        exact ⟨r, List.mem_cons_of_mem q hr, hr1, hr2⟩
    · rintro ⟨r, hr, hr1, hr2⟩
      rcases List.mem_cons.mp hr with hr | hr
      · subst hr
        have := chainFrom_le qs (r.end_ + 1) e hrest
        omega
      · have := chainFrom_bounds qs (q.end_ + 1) e hrest r hr
        omega

theorem chainFrom_append : ∀ (l₁ l₂ : List fetchRange) (s m e : Int),
    chainFrom s l₁ m → chainFrom m l₂ e → chainFrom s (l₁ ++ l₂) e := by
  intro l₁
  induction l₁ with
  | nil =>
    intro l₂ s m e h1 h2
    have : s = m := h1
    subst this
    simpa using h2
  | cons q qs ih =>
    intro l₂ s m e h1 h2
    obtain ⟨hs, hse, hrest⟩ := h1
    exact ⟨hs, hse, ih l₂ (q.end_ + 1) m e hrest h2⟩

/-! ## `genRanges` emits a tiling of `[StartIndex, EndIndex)` -/

theorem genRanges_chainFrom (batch : Int) (hb : 1 ≤ batch) :
    ∀ (n : Nat) (s e : Int), (e - s).toNat ≤ n → s ≤ e →
    chainFrom s (genRanges batch s e) e := by
  intro n
  induction n with
  | zero =>
    intro s e hn hse
    have hse' : s = e := by omega
    rw [genRanges, dif_neg (by omega)]
    simpa [chainFrom] using hse'
  | succ n ih =>
    intro s e hn hse
    by_cases h : s < e
    · rw [genRanges, dif_pos ⟨h, hb⟩]
      have hmin1 : 1 ≤ goMin (e - s) batch := by
        simp only [goMin]; split <;> omega
      have hminle : goMin (e - s) batch ≤ e - s := by
        simp only [goMin]; split <;> omega
      refine ⟨rfl, ?_, ?_⟩
      · show s ≤ s + goMin (e - s) batch - 1
        omega
      · show chainFrom (s + goMin (e - s) batch - 1 + 1)
          (genRanges batch (s + goMin (e - s) batch) e) e
        have heq : s + goMin (e - s) batch - 1 + 1 = s + goMin (e - s) batch := by ring
        rw [heq]
        exact ih (s + goMin (e - s) batch) e (by omega) (by omega)
    · have hse' : s = e := by omega
      rw [genRanges, dif_neg (by omega)]
      simpa [chainFrom] using hse'

theorem genRanges_width (batch : Int) (hb : 1 ≤ batch) :
    ∀ (n : Nat) (s e : Int), (e - s).toNat ≤ n →
    ∀ r ∈ genRanges batch s e, r.end_ - r.start + 1 ≤ batch := by
  intro n
  induction n with
  | zero =>
    intro s e hn r hr
    by_cases h : s < e
    · omega
    · rw [genRanges, dif_neg (by omega)] at hr
      simp at hr
  | succ n ih =>
    intro s e hn r hr
    by_cases h : s < e
    · rw [genRanges, dif_pos ⟨h, hb⟩] at hr
      have hmin1 : 1 ≤ goMin (e - s) batch := by
        simp only [goMin]; split <;> omega
      have hminle : goMin (e - s) batch ≤ e - s := by
        simp only [goMin]; split <;> omega
      have hminb : goMin (e - s) batch ≤ batch := by
        simp only [goMin]; split <;> omega
      rcases List.mem_cons.mp hr with hr | hr
      · subst hr
        show s + goMin (e - s) batch - 1 - s + 1 ≤ batch
        omega
      · exact ih (s + goMin (e - s) batch) e (by omega) r hr
    · rw [genRanges, dif_neg (by omega)] at hr
      simp at hr

end scanner

namespace scanner

/-! ## Worker coverage under nonempty, in-range responses -/

theorem runRange_covers (g : Int → Int → List LeafEntry)
    (hg : ∀ s' e' : Int, s' ≤ e' →
      1 ≤ (g s' e').length ∧ ((g s' e').length : Int) ≤ e' - s' + 1) :
    ∀ (fuel : Nat) (r : fetchRange), r.start ≤ r.end_ + 1 →
    (r.end_ + 1 - r.start).toNat ≤ fuel →
    chainFrom r.start ((runRange g fuel r).1.map span) (r.end_ + 1) ∧
      (runRange g fuel r).2 = none := by
  intro fuel
  induction fuel with
  | zero =>
    intro r hle hn
    have hgt : ¬ r.start ≤ r.end_ := by omega
    constructor
    · show chainFrom r.start (([] : List EntryBatch).map span) (r.end_ + 1)
      simp only [List.map_nil]
      show r.start = r.end_ + 1
      omega
    · show (if r.start ≤ r.end_ then some r else none) = none
      simp [hgt]
  | succ n ih =>
    intro r hle hn
    by_cases hsr : r.start ≤ r.end_
    · obtain ⟨h1, h2⟩ := hg r.start r.end_ hsr
      simp only [runRange, if_pos hsr]
      obtain ⟨hc, hnone⟩ := ih ⟨r.start + (g r.start r.end_).length, r.end_⟩
        (by simp only; omega) (by simp only; omega)
      refine ⟨⟨rfl, ?_, ?_⟩, hnone⟩
      · show r.start ≤ r.start + ((g r.start r.end_).length : Int) - 1
        omega
      · show chainFrom (r.start + ((g r.start r.end_).length : Int) - 1 + 1) _ (r.end_ + 1)
        have heq : r.start + ((g r.start r.end_).length : Int) - 1 + 1
            = r.start + ((g r.start r.end_).length : Int) := by ring
        rw [heq]
        exact hc
    · have hst : r.start = r.end_ + 1 := by omega
      simp only [runRange, if_neg hsr]
      exact ⟨hst, trivial⟩

theorem runFetcher_chainFrom (batch s e : Int) (g : Int → Int → List LeafEntry)
    (hb : 1 ≤ batch) (hse : s ≤ e)
    (hg : ∀ s' e' : Int, s' ≤ e' →
      1 ≤ (g s' e').length ∧ ((g s' e').length : Int) ≤ e' - s' + 1) :
    chainFrom s ((runFetcher batch s e g).map span) e := by
  have main : ∀ (l : List fetchRange) (s0 : Int), chainFrom s0 l e →
      chainFrom s0
        (((l.map (fun r => (runRange g (r.end_ + 1 - r.start).toNat r).1)).flatten).map span)
        e := by
    intro l
    induction l with
    | nil =>
      intro s0 h
      simpa [chainFrom] using h
    | cons r rs ih =>
      intro s0 h
      obtain ⟨hs, hsr, hrest⟩ := h
      subst hs
      simp only [List.map_cons, List.flatten_cons, List.map_append]
      refine chainFrom_append _ _ _ (r.end_ + 1) _ ?_ (ih (r.end_ + 1) hrest)
      exact (runRange_covers g hg (r.end_ + 1 - r.start).toNat r (by omega) (le_refl _)).1
  exact main (genRanges batch s e) s
    (genRanges_chainFrom batch hb (e - s).toNat s e (le_refl _) hse)

end scanner


namespace fixchain

/-! ## Logger behaviour lemmas -/

/-- Extensional description of `QueueChain` on a non-nil chain: the three
branches of the Go function. -/
theorem queueChain_some_eq (l : LoggerState) (chain : List Certificate) :
    queueChain l (some chain) =
      if lockedMapGet l.postCertCache (hash chain.headI) then
        { l with queued := incU32 l.queued, reposted := incU32 l.reposted }
      else if lockedMapGet l.postChainCache (hashChain chain) then
        { l with queued := incU32 l.queued, chainReposted := incU32 l.chainReposted }
      else
        { l with queued := incU32 l.queued,
                 postChainCache := lockedMapSet l.postChainCache (hashChain chain),
                 toPost := l.toPost ++ [chain] } := by
  simp only [queueChain]

/-- Extensional description of `postChain` on one task. -/
theorem postChain_eq (l : LoggerState) (p : List Certificate) (e? : Option String) :
    postChain l p e? =
      if lockedMapGet l.postCertCache (hash p.headI) then
        ({ l with reposted := incU32 l.reposted }, [], [])
      else
        match e? with
        | some e =>
          ({ l with posted := incU32 l.posted },
           [⟨ErrorType.LogPostFailed, p, "add-chain failed: " ++ e⟩], [p])
        | none =>
          ({ l with posted := incU32 l.posted,
                    postCertCache := lockedMapSet l.postCertCache (hash p.headI) },
           [], [p]) := by
  simp only [postChain]

/-- The at-most-once invariant of a Logger configuration: every queued or
already-posted chain has its ordered hash recorded in `postChainCache`, and
the ordered hashes of queued and posted chains are pairwise distinct. -/
def LoggerInv (st : LoggerState × List (List Certificate)) : Prop :=
  (∀ c ∈ st.1.toPost, lockedMapGet st.1.postChainCache (hashChain c) = true) ∧
  (∀ c ∈ st.2, lockedMapGet st.1.postChainCache (hashChain c) = true) ∧
  (st.1.toPost ++ st.2).Pairwise (fun c₁ c₂ => hashChain c₁ ≠ hashChain c₂)

theorem lockedMapGet_set_mono {m : List (List Nat)} {k k' : List Nat}
    (h : lockedMapGet m k = true) : lockedMapGet (lockedMapSet m k') k = true := by
  have h' : k ∈ m := by simpa [lockedMapGet] using h
  simp [lockedMapGet, lockedMapSet]
  exact Or.inr h'

theorem loggerStep_inv (st : LoggerState × List (List Certificate)) (ev : LogEv)
    (h : LoggerInv st) : LoggerInv (loggerStep st ev) := by
  obtain ⟨hq, hc, hp⟩ := h
  have hsymm : ∀ {x y : List Certificate},
      hashChain x ≠ hashChain y → hashChain y ≠ hashChain x :=
    fun h => Ne.symm h
  cases ev with
  | queue chain =>
    cases chain with
    | none => exact ⟨hq, hc, hp⟩
    | some chain =>
      show LoggerInv (queueChain st.1 (some chain), st.2)
      rw [queueChain_some_eq]
      by_cases h1 : lockedMapGet st.1.postCertCache (hash chain.headI) = true
      · rw [if_pos h1]
        exact ⟨hq, hc, hp⟩
      · rw [if_neg h1]
        by_cases h2 : lockedMapGet st.1.postChainCache (hashChain chain) = true
        · rw [if_pos h2]
          exact ⟨hq, hc, hp⟩
        · rw [if_neg h2]
          refine ⟨?_, ?_, ?_⟩
          · intro c hcm
            rcases List.mem_append.mp hcm with hcm | hcm
            · exact lockedMapGet_set_mono (hq c hcm)
            · have hcc : c = chain := by simpa using hcm
              subst hcc
              simp [lockedMapGet, lockedMapSet]
          · intro c hcm
            exact lockedMapGet_set_mono (hc c hcm)
          · show List.Pairwise (fun c₁ c₂ => hashChain c₁ ≠ hashChain c₂)
              ((st.1.toPost ++ [chain]) ++ st.2)
            have hre : (st.1.toPost ++ [chain]) ++ st.2
                = st.1.toPost ++ chain :: st.2 := by simp
            rw [hre]
            refine (List.perm_middle.pairwise_iff hsymm).mpr ?_
            refine List.Pairwise.cons ?_ hp
            intro b hb hne
            have hbc : lockedMapGet st.1.postChainCache (hashChain b) = true := by
              rcases List.mem_append.mp hb with hb | hb
              · exact hq b hb
              · exact hc b hb
            rw [← hne] at hbc
            exact h2 hbc
  | post e? =>
    show LoggerInv (loggerStep st (LogEv.post e?))
    simp only [loggerStep]
    rcases htp : st.1.toPost with _ | ⟨p, rest⟩
    · exact ⟨by rw [htp]; intro c hcm; simp at hcm, hc, by rw [htp] at hp ⊢; simpa using hp⟩
    · rw [htp] at hq hp
      simp only
      rw [postChain_eq]
      have key : ∀ l' : LoggerState, l'.postChainCache = st.1.postChainCache →
          l'.toPost = rest → LoggerInv (l', st.2 ++ [p]) := by
        intro l' hcache htp'
        refine ⟨?_, ?_, ?_⟩
        · intro c hcm
          rw [htp'] at hcm
          rw [hcache]
          exact hq c (List.mem_cons_of_mem p hcm)
        · intro c hcm
          rw [hcache]
          rcases List.mem_append.mp hcm with hcm | hcm
          · exact hc c hcm
          · have hcc : c = p := by simpa using hcm
            subst hcc
            exact hq c (List.mem_cons_self c rest)
        · rw [htp']
          have hassoc : rest ++ (st.2 ++ [p]) = (rest ++ st.2) ++ [p] := by simp
          rw [hassoc]
          have hp' : List.Pairwise (fun c₁ c₂ => hashChain c₁ ≠ hashChain c₂)
              (p :: (rest ++ st.2)) := by simpa using hp
          exact ((List.perm_append_singleton p (rest ++ st.2)).pairwise_iff hsymm).mpr hp'
      by_cases h1 : lockedMapGet
          ({ st.1 with toPost := rest } : LoggerState).postCertCache (hash p.headI) = true
      · rw [if_pos h1]
        dsimp only
        rw [List.append_nil]
        refine ⟨?_, hc, ?_⟩
        · intro c hcm
          exact hq c (List.mem_cons_of_mem p hcm)
        · refine List.Pairwise.sublist ?_ hp
          exact (List.sublist_cons_self p rest).append_right st.2
      · rw [if_neg h1]
        cases e? with
        | some e =>
          dsimp only
          exact key _ rfl rfl
        | none =>
          dsimp only
          exact key _ rfl rfl

theorem runLogger_inv (evs : List LogEv) : LoggerInv (runLogger evs) := by
  have main : ∀ (evs : List LogEv) (st : LoggerState × List (List Certificate)),
      LoggerInv st → LoggerInv (evs.foldl loggerStep st) := by
    intro evs
    induction evs with
    | nil => intro st h; exact h
    | cons ev evs ih =>
      intro st h
      exact ih (loggerStep st ev) (loggerStep_inv st ev h)
  refine main evs (initLoggerState, []) ?_
  refine ⟨?_, ?_, ?_⟩ <;> simp [initLoggerState, LoggerInv]

end fixchain

namespace fixchain

/-! ## What `hash` actually computes -/

theorem sha256Bytes_nil_length : (sha256Bytes []).length = 32 := by decide

/-- `hash c` is a window of `c.Raw ++ SHA256("")`, not a digest of `c.Raw`. -/
theorem hash_characterization (c : Certificate) :
    hash c = c.Raw.take 32 ++ (sha256Bytes []).take (32 - c.Raw.length) := by
  simp only [hash, copy32, newHashSum]
  rw [List.take_append_eq_append_take]
  have h32 : (c.Raw ++ sha256Bytes []).length = c.Raw.length + 32 := by
    rw [List.length_append, sha256Bytes_nil_length]
  rw [h32]
  have hz : 32 - (c.Raw.length + 32) = 0 := by omega
  rw [hz]
  simp

theorem hash_length (c : Certificate) : (hash c).length = 32 := by
  simp only [hash, copy32, newHashSum, List.length_append, List.length_take,
    List.length_replicate, sha256Bytes_nil_length]
  omega

/-! ## List index helpers for the store model -/

theorem getD_set_self {α : Type} (l : List α) (n : Nat) (a d : α)
    (h : n < l.length) : (l.set n a).getD n d = a := by
  rw [List.getD_eq_getElem?_getD, List.getElem?_set_self h]
  rfl

theorem getD_append_self {α : Type} (l : List α) (x d : α) :
    (l ++ [x]).getD l.length d = x := by
  rw [List.getD_eq_getElem?_getD, List.getElem?_append, if_neg (by omega), Nat.sub_self]
  rfl

end fixchain

namespace scanner

/-- With an always-successful, always-empty `GetRawEntries` oracle, every
attempt on an uncovered range emits an empty `EntryBatch` and leaves the
range unchanged: the worker re-requests the same range forever. -/
theorem runRange_emptyOracle : ∀ (n : Nat) (s e : Int), s ≤ e →
    runRange emptyEntriesOracle n ⟨s, e⟩ =
      (List.replicate n (⟨s, []⟩ : EntryBatch), some ⟨s, e⟩) := by
  intro n
  induction n with
  | zero =>
    intro s e hse
    simp [runRange, hse]
  | succ n ih =>
    intro s e hse
    simp only [runRange]
    rw [if_pos (show (⟨s, e⟩ : fetchRange).start ≤ (⟨s, e⟩ : fetchRange).end_ from hse)]
    simp only [emptyEntriesOracle, List.length_nil, Nat.cast_zero, add_zero]
    rw [ih s e hse]
    simp [List.replicate_succ]

end scanner

/-! ## The claims -/

set_option maxRecDepth 200000 in
/-- **C1** (counterexample): contrary to the claim that `hash` returns the
SHA-256 digest of the certificate's raw DER bytes, on the one-byte
certificate `exCertA` the two values differ: `hash` copies the first 32
bytes of `Raw ++ SHA256("")` instead of digesting `Raw`. -/
theorem C1_counterexample :
    fixchain.hash fixchain.exCertA ≠ sha256Bytes fixchain.exCertA.Raw := by
  decide

/-- **C1** (amended): `hash c` is a 32-byte array holding the first 32
bytes of `c.Raw`, padded — when the DER is shorter than 32 bytes — with
the leading bytes of SHA-256 of the empty string; it is not the SHA-256
digest of the DER. -/
theorem C1_hash_is_der_window :
    ∀ c : fixchain.Certificate,
      (fixchain.hash c).length = 32 ∧
      fixchain.hash c = c.Raw.take 32 ++ (sha256Bytes []).take (32 - c.Raw.length) :=
  fun c => ⟨fixchain.hash_length c, fixchain.hash_characterization c⟩

/-- **C2**: along any sequence of `QueueChain` calls and `postServer`
steps starting from a fresh Logger, the chains passed to `AddChain` have
pairwise distinct `hashChain` values — `AddChain` is invoked at most once
per distinct ordered chain hash. -/
theorem C2_addChain_at_most_once :
    ∀ evs : List fixchain.LogEv,
      (fixchain.runLogger evs).2.Pairwise
        (fun c₁ c₂ => fixchain.hashChain c₁ ≠ fixchain.hashChain c₂) := by
  intro evs
  have h := fixchain.runLogger_inv evs
  exact (List.pairwise_append.mp h.2.2).2.1

/-- **C3** (counterexample): a successful `GetRawEntries` returning zero
entries on the uncovered range `[0, 5]` is *not* counted as a failed
attempt: the `EntryBatch` callback fires with an empty batch on every
attempt and the remaining range never shrinks, so the worker keeps
re-requesting `[0, 5]`. -/
theorem C3_counterexample :
    scanner.runRange scanner.emptyEntriesOracle 1 ⟨0, 5⟩ =
      ([⟨0, []⟩], some ⟨0, 5⟩) ∧
    scanner.runRange scanner.emptyEntriesOracle 2 ⟨0, 5⟩ =
      ([⟨0, []⟩, ⟨0, []⟩], some ⟨0, 5⟩) := by
  decide

/-- **C3** (amended): the worker treats a zero-entry success like any
other success: after `n` such attempts on an uncovered range it has
invoked the callback `n` times with empty batches and still faces the
original range, re-requesting it indefinitely (until context
cancellation). -/
theorem C3_zero_entries_spin :
    ∀ (n : Nat) (s e : Int), s ≤ e →
      scanner.runRange scanner.emptyEntriesOracle n ⟨s, e⟩ =
        (List.replicate n (⟨s, []⟩ : scanner.EntryBatch), some ⟨s, e⟩) :=
  scanner.runRange_emptyOracle

/-- Witness for C3: four zero-entry attempts on `[2, 9]`. -/
theorem C3_zero_entries_spin_witness :
    scanner.runRange scanner.emptyEntriesOracle 4 ⟨2, 9⟩ =
      (List.replicate 4 (⟨2, []⟩ : scanner.EntryBatch), some ⟨2, 9⟩) :=
  C3_zero_entries_spin 4 2 9 (by decide)

set_option maxRecDepth 200000 in
/-- **C4** (counterexample): a `QueueChain` call suppressed by the
`postCertCache` check (no task enqueued, `reposted` bumped) still
increments `queued`, contradicting the claim that suppressed calls leave
`queued` unchanged. -/
theorem C4_counterexample :
    (fixchain.queueChain fixchain.exStC4 (some [fixchain.exCertA])).toPost
        = fixchain.exStC4.toPost ∧
    (fixchain.queueChain fixchain.exStC4 (some [fixchain.exCertA])).reposted
        = fixchain.exStC4.reposted + 1 ∧
    (fixchain.queueChain fixchain.exStC4 (some [fixchain.exCertA])).queued
        ≠ fixchain.exStC4.queued := by
  decide

/-- **C4** (amended): `queued` is incremented (mod `2^32`) on *every*
`QueueChain` call with a non-nil chain — including calls suppressed by
either cache — and only a nil chain leaves it unchanged. -/
theorem C4_queued_every_call :
    ∀ (l : fixchain.LoggerState) (c : fixchain.Certificate)
      (rest : List fixchain.Certificate),
      (fixchain.queueChain l (some (c :: rest))).queued = fixchain.incU32 l.queued ∧
      (fixchain.queueChain l none).queued = l.queued := by
  intro l c rest
  constructor
  · rw [fixchain.queueChain_some_eq]
    by_cases h1 : fixchain.lockedMapGet l.postCertCache
        (fixchain.hash (c :: rest).headI) = true
    · rw [if_pos h1]
    · rw [if_neg h1]
      by_cases h2 : fixchain.lockedMapGet l.postChainCache
          (fixchain.hashChain (c :: rest)) = true
      · rw [if_pos h2]
      · rw [if_neg h2]
  · rfl

/-- **C5**: the three branches of `QueueChain` on a non-nil chain: a
`postCertCache` hit bumps `reposted` and changes nothing else (no enqueue,
no `postChainCache` write); otherwise a `postChainCache` hit bumps
`chainReposted` and changes nothing else; only otherwise is the chain hash
cached and the task enqueued.  (`queued` is bumped in all three.) -/
theorem C5_queueChain_branches :
    ∀ (l : fixchain.LoggerState) (c : fixchain.Certificate)
      (rest : List fixchain.Certificate),
      (fixchain.lockedMapGet l.postCertCache (fixchain.hash c) = true →
        fixchain.queueChain l (some (c :: rest)) =
          { l with queued := fixchain.incU32 l.queued,
                   reposted := fixchain.incU32 l.reposted }) ∧
      (fixchain.lockedMapGet l.postCertCache (fixchain.hash c) = false →
        fixchain.lockedMapGet l.postChainCache (fixchain.hashChain (c :: rest)) = true →
        fixchain.queueChain l (some (c :: rest)) =
          { l with queued := fixchain.incU32 l.queued,
                   chainReposted := fixchain.incU32 l.chainReposted }) ∧
      (fixchain.lockedMapGet l.postCertCache (fixchain.hash c) = false →
        fixchain.lockedMapGet l.postChainCache (fixchain.hashChain (c :: rest)) = false →
        fixchain.queueChain l (some (c :: rest)) =
          { l with queued := fixchain.incU32 l.queued,
                   postChainCache := fixchain.lockedMapSet l.postChainCache
                     (fixchain.hashChain (c :: rest)),
                   toPost := l.toPost ++ [c :: rest] }) := by
  intro l c rest
  refine ⟨?_, ?_, ?_⟩
  · intro h1
    rw [fixchain.queueChain_some_eq]
    simp only [List.headI]
    rw [if_pos h1]
  · intro h1 h2
    rw [fixchain.queueChain_some_eq]
    simp only [List.headI]
    rw [if_neg (by simp [h1]), if_pos h2]
  · intro h1 h2
    rw [fixchain.queueChain_some_eq]
    simp only [List.headI]
    rw [if_neg (by simp [h1]), if_neg (by simp [h2])]

set_option maxRecDepth 200000 in
/-- Witness for C5: the three branches on concrete states. -/
theorem C5_queueChain_branches_witness :
    (fixchain.queueChain fixchain.exStC5a (some [fixchain.exCertC5]) =
      { fixchain.exStC5a with
          queued := fixchain.incU32 fixchain.exStC5a.queued,
          reposted := fixchain.incU32 fixchain.exStC5a.reposted }) ∧
    (fixchain.queueChain fixchain.exStC5b (some [fixchain.exCertC5]) =
      { fixchain.exStC5b with
          queued := fixchain.incU32 fixchain.exStC5b.queued,
          chainReposted := fixchain.incU32 fixchain.exStC5b.chainReposted }) ∧
    (fixchain.queueChain fixchain.initLoggerState (some [fixchain.exCertC5]) =
      { fixchain.initLoggerState with
          queued := fixchain.incU32 fixchain.initLoggerState.queued,
          postChainCache := fixchain.lockedMapSet
            fixchain.initLoggerState.postChainCache
            (fixchain.hashChain [fixchain.exCertC5]),
          toPost := fixchain.initLoggerState.toPost ++ [[fixchain.exCertC5]] }) :=
  ⟨(C5_queueChain_branches fixchain.exStC5a fixchain.exCertC5 []).1 (by decide),
   (C5_queueChain_branches fixchain.exStC5b fixchain.exCertC5 []).2.1
     (by decide) (by decide),
   (C5_queueChain_branches fixchain.initLoggerState fixchain.exCertC5 []).2.2
     (by decide) (by decide)⟩

/-- **C6**: with `Continuous = false`, `BatchSize ≥ 1` and
`StartIndex ≤ EndIndex`, the ranges emitted by `genRanges` are nonempty,
at most `BatchSize` wide, start at `StartIndex`, are strictly increasing,
contiguous (each starts one past the previous end) and non-overlapping,
and their union is exactly `[StartIndex, EndIndex)`. -/
theorem C6_genRanges_tiling :
    ∀ batch s e : Int, 1 ≤ batch → s ≤ e →
      (∀ r ∈ scanner.genRanges batch s e,
        r.start ≤ r.end_ ∧ r.end_ - r.start + 1 ≤ batch) ∧
      (∀ r : scanner.fetchRange,
        (scanner.genRanges batch s e).head? = some r → r.start = s) ∧
      (∀ (i : Nat) (r₁ r₂ : scanner.fetchRange),
        (scanner.genRanges batch s e)[i]? = some r₁ →
        (scanner.genRanges batch s e)[i + 1]? = some r₂ →
        r₂.start = r₁.end_ + 1) ∧
      (∀ (i j : Nat) (r₁ r₂ : scanner.fetchRange), i < j →
        (scanner.genRanges batch s e)[i]? = some r₁ →
        (scanner.genRanges batch s e)[j]? = some r₂ → r₁.end_ < r₂.start) ∧
      (∀ x : Int, (s ≤ x ∧ x < e) ↔
        ∃ r ∈ scanner.genRanges batch s e, r.start ≤ x ∧ x ≤ r.end_) := by
  intro batch s e hb hse
  have hchain := scanner.genRanges_chainFrom batch hb (e - s).toNat s e (le_refl _) hse
  have hwidth := scanner.genRanges_width batch hb (e - s).toNat s e (le_refl _)
  refine ⟨?_, ?_, ?_, ?_, ?_⟩
  · intro r hr
    exact ⟨(scanner.chainFrom_bounds _ _ _ hchain r hr).2.1, hwidth r hr⟩
  · intro r hr
    exact scanner.chainFrom_head _ _ _ hchain r hr
  · intro i r₁ r₂ h1 h2
    exact scanner.chainFrom_consec _ _ _ i r₁ r₂ hchain h1 h2
  · intro i j r₁ r₂ hij h1 h2
    exact scanner.chainFrom_disjoint _ _ _ i j r₁ r₂ hchain hij h1 h2
  · intro x
    exact scanner.chainFrom_cover _ _ _ hchain x

/-- Witness for C6: `BatchSize = 3` over `[0, 7)`; index 4 lies in exactly
the emitted ranges that cover it. -/
theorem C6_genRanges_tiling_witness :
    ((1 : Int) ≤ 3 ∧ (0 : Int) ≤ 7) ∧
    (((0 : Int) ≤ 4 ∧ (4 : Int) < 7) ↔
      ∃ r ∈ scanner.genRanges 3 0 7, r.start ≤ 4 ∧ 4 ≤ r.end_) :=
  ⟨⟨by decide, by decide⟩,
   (C6_genRanges_tiling 3 0 7 (by decide) (by decide)).2.2.2.2 4⟩

/-- **C7**: in non-continuous mode, if every successful `GetRawEntries`
response on `[s', e']` holds between 1 and `e' - s' + 1` entries starting
at `s'`, then the batches delivered across the whole run have
pairwise-disjoint index spans whose union is exactly
`[StartIndex, EndIndex)` — partial responses shrink the remaining range
and are re-requested until covered. -/
theorem C7_run_coverage :
    ∀ (batch s e : Int) (g : Int → Int → List scanner.LeafEntry),
      1 ≤ batch → s ≤ e →
      (∀ s' e' : Int, s' ≤ e' →
        1 ≤ (g s' e').length ∧ ((g s' e').length : Int) ≤ e' - s' + 1) →
      (∀ (i j : Nat) (b₁ b₂ : scanner.EntryBatch), i < j →
        (scanner.runFetcher batch s e g)[i]? = some b₁ →
        (scanner.runFetcher batch s e g)[j]? = some b₂ →
        b₁.Start + b₁.Entries.length ≤ b₂.Start) ∧
      (∀ x : Int, (s ≤ x ∧ x < e) ↔
        ∃ b ∈ scanner.runFetcher batch s e g,
          b.Start ≤ x ∧ x < b.Start + b.Entries.length) := by
  intro batch s e g hb hse hg
  have hchain := scanner.runFetcher_chainFrom batch s e g hb hse hg
  constructor
  · intro i j b₁ b₂ hij h1 h2
    have h1' : ((scanner.runFetcher batch s e g).map scanner.span)[i]?
        = some (scanner.span b₁) := by
      rw [List.getElem?_map, h1]
      rfl
    have h2' : ((scanner.runFetcher batch s e g).map scanner.span)[j]?
        = some (scanner.span b₂) := by
      rw [List.getElem?_map, h2]
      rfl
    have hd := scanner.chainFrom_disjoint _ _ _ i j _ _ hchain hij h1' h2'
    simp only [scanner.span] at hd
    omega
  · intro x
    have hcov := scanner.chainFrom_cover _ _ _ hchain x
    constructor
    · intro hx
      obtain ⟨r, hr, hr1, hr2⟩ := hcov.mp hx
      obtain ⟨b, hbm, rfl⟩ := List.mem_map.mp hr
      simp only [scanner.span] at hr1 hr2
      exact ⟨b, hbm, by omega, by omega⟩
    · rintro ⟨b, hbm, hb1, hb2⟩
      apply hcov.mpr
      refine ⟨scanner.span b, List.mem_map_of_mem _ hbm, ?_, ?_⟩ <;>
        (simp only [scanner.span]; omega)

/-- Witness for C7: `BatchSize = 2` over `[0, 5)` against a log whose
every response is a single entry; index 3 is covered by a delivered
batch. -/
theorem C7_run_coverage_witness :
    (((0 : Int) ≤ 3 ∧ (3 : Int) < 5) ↔
      ∃ b ∈ scanner.runFetcher 2 0 5 scanner.singleEntryOracle,
        b.Start ≤ 3 ∧ 3 < b.Start + b.Entries.length) :=
  (C7_run_coverage 2 0 5 scanner.singleEntryOracle (by decide) (by decide)
    (by
      intro s' e' h
      constructor
      · simp [scanner.singleEntryOracle]
      · simp only [scanner.singleEntryOracle, List.length_cons, List.length_nil]
        omega)).2 3

/-- **C8**: `hashBag` is invariant under permutation of the chain: it
sorts a copy under the total length-then-lexicographic order on raw DER
bytes and hashes the sorted copy, so chains that are permutations of one
another get the same bag hash. -/
theorem C8_hashBag_perm_invariant :
    ∀ l₁ l₂ : List fixchain.Certificate, l₁.Perm l₂ →
      fixchain.hashBag l₁ = fixchain.hashBag l₂ := by
  intro l₁ l₂ h
  show fixchain.hashChain (fixchain.sortCerts l₁)
      = fixchain.hashChain (fixchain.sortCerts l₂)
  rw [fixchain.sortCerts_perm_eq h]

/-- Witness for C8: a three-element chain with a duplicate, permuted. -/
theorem C8_hashBag_perm_invariant_witness :
    (([⟨[1]⟩, ⟨[2]⟩, ⟨[1]⟩] : List fixchain.Certificate).Perm
      [⟨[2]⟩, ⟨[1]⟩, ⟨[1]⟩]) ∧
    fixchain.hashBag [⟨[1]⟩, ⟨[2]⟩, ⟨[1]⟩] = fixchain.hashBag [⟨[2]⟩, ⟨[1]⟩, ⟨[1]⟩] :=
  ⟨by decide, C8_hashBag_perm_invariant _ _ (by decide)⟩

/-- **C9**: when `postChain` actually reaches `AddChain` (no
`postCertCache` hit), a failing call emits exactly one
`FixError{LogPostFailed, chain, wrapped error}` and leaves `postCertCache`
unchanged, while a successful call emits no error and records the leaf
hash in `postCertCache`. -/
theorem C9_postChain_outcomes :
    ∀ (l : fixchain.LoggerState) (c : fixchain.Certificate)
      (rest : List fixchain.Certificate) (e : String),
      fixchain.lockedMapGet l.postCertCache (fixchain.hash c) = false →
      (fixchain.postChain l (c :: rest) (some e) =
        ({ l with posted := fixchain.incU32 l.posted },
         [⟨fixchain.ErrorType.LogPostFailed, c :: rest, "add-chain failed: " ++ e⟩],
         [c :: rest])) ∧
      (fixchain.postChain l (c :: rest) none =
        ({ l with posted := fixchain.incU32 l.posted,
                  postCertCache := fixchain.lockedMapSet l.postCertCache
                    (fixchain.hash c) },
         [], [c :: rest])) := by
  intro l c rest e h1
  constructor
  · rw [fixchain.postChain_eq]
    simp only [List.headI]
    rw [if_neg (by simp [h1])]
  · rw [fixchain.postChain_eq]
    simp only [List.headI]
    rw [if_neg (by simp [h1])]

set_option maxRecDepth 200000 in
/-- Witness for C9: a fresh Logger posting the chain `[exCertC9]`, with
the log refusing and then accepting. -/
theorem C9_postChain_outcomes_witness :
    (fixchain.postChain fixchain.initLoggerState [fixchain.exCertC9]
        (some "refused") =
      ({ fixchain.initLoggerState with
          posted := fixchain.incU32 fixchain.initLoggerState.posted },
       [⟨fixchain.ErrorType.LogPostFailed, [fixchain.exCertC9],
         "add-chain failed: " ++ "refused"⟩],
       [[fixchain.exCertC9]])) ∧
    (fixchain.postChain fixchain.initLoggerState [fixchain.exCertC9] none =
      ({ fixchain.initLoggerState with
          posted := fixchain.incU32 fixchain.initLoggerState.posted,
          postCertCache := fixchain.lockedMapSet
            fixchain.initLoggerState.postCertCache
            (fixchain.hash fixchain.exCertC9) },
       [], [[fixchain.exCertC9]])) :=
  C9_postChain_outcomes fixchain.initLoggerState fixchain.exCertC9 [] "refused"
    (by decide)

/-- **C10**: in the store model, `hashBag` never writes the argument
slice: it copies the chain into a freshly allocated slice, sorts the copy
in place, and hashes it, so the store cell of the argument is unchanged
and the result is the bag hash of the argument's contents. -/
theorem C10_hashBag_frame :
    ∀ (σ : List (List fixchain.Certificate)) (p : Nat), p < σ.length →
      (fixchain.hashBagStore σ p).1[p]? = σ[p]? ∧
      (fixchain.hashBagStore σ p).2 = fixchain.hashBag (σ.getD p []) := by
  intro σ p hp
  constructor
  · show ((σ ++ [σ.getD p []]).set σ.length
      (fixchain.sortCerts ((σ ++ [σ.getD p []]).getD σ.length [])))[p]? = σ[p]?
    rw [List.getElem?_set_ne (by omega), List.getElem?_append, if_pos hp]
  · show fixchain.hashChain (((σ ++ [σ.getD p []]).set σ.length
      (fixchain.sortCerts ((σ ++ [σ.getD p []]).getD σ.length []))).getD σ.length [])
      = fixchain.hashBag (σ.getD p [])
    rw [fixchain.getD_set_self _ _ _ _ (by rw [List.length_append]; simp),
        fixchain.getD_append_self]
    rfl

/-- Witness for C10: a one-slice store holding a two-certificate chain. -/
theorem C10_hashBag_frame_witness :
    (0 < ([[⟨[5]⟩, ⟨[4]⟩]] : List (List fixchain.Certificate)).length) ∧
    ((fixchain.hashBagStore [[⟨[5]⟩, ⟨[4]⟩]] 0).1[0]?
        = ([[⟨[5]⟩, ⟨[4]⟩]] : List (List fixchain.Certificate))[0]? ∧
     (fixchain.hashBagStore [[⟨[5]⟩, ⟨[4]⟩]] 0).2
        = fixchain.hashBag (([[⟨[5]⟩, ⟨[4]⟩]] :
            List (List fixchain.Certificate)).getD 0 [])) :=
  ⟨by decide, C10_hashBag_frame [[⟨[5]⟩, ⟨[4]⟩]] 0 (by decide)⟩
